import Mathlib

/-!
RingQueue: a fixed-capacity circular buffer.

Shallow embedding of `ring_queue.cpp` (class template `RingQueue<ItemType, MAX_SIZE>`
with its nested `iterator`, and the driver `main`).

Modelling conventions
* `int` is 32 bits wide. The members `begin_index`, `ring_size`, `offset` are carried as
  `Int`, and every `int` addition, subtraction and increment of the source is wrapped by
  `int32`, the two's-complement value a 32-bit target computes (signed overflow is
  undefined in C++; the wrap is what the usual targets do). The C++ operator `%` on `int`
  is truncated remainder, `Int.tmod`.
* `MAX_SIZE - 1` is left unwrapped: `MAX_SIZE` is an `int` constant of at least 1.
* The template argument `MAX_SIZE` is an explicit parameter; it is a `Nat` because it is
  the bound of the array `buffer[MAX_SIZE]`.
* `buffer` is a `List`; an access `buffer[i]` outside `0 .. buffer.length - 1` is undefined
  behaviour in C++ and is `none` here.
* Text sent to `std::cerr` is returned next to the result of the call, see `Call`.
* `size_t` is taken to be 64 bits wide; results about `size()` assume that the capacity
  fits an `int`, `MAX_SIZE ≤ 2147483647`.
-/

/-- The two diagnostics the class writes to `std::cerr`. -/
inductive Cerr where
  /-- The line `Warning: Empty ring!` of `front()` and `back()`. -/
  | empty_ring
  /-- The line that `pop_front()` prints when it is called on an empty ring. -/
  | pop_on_empty
  deriving DecidableEq, Repr

/-- Outcome of a member function that may write to `std::cerr`:
the lines written, and what the call returns (for a `void` mutator, the new state). -/
structure Call (β : Type) where
  cerr : List Cerr
  ret : β
  deriving DecidableEq, Repr

/-- Data members of `RingQueue<ItemType, MAX_SIZE>`. -/
structure RingQueue (ItemType : Type) where
  buffer : List ItemType
  begin_index : Int
  ring_size : Int
  deriving DecidableEq, Repr

/-- Value of an `int` expression whose mathematical value is `x`: reduction to the
32-bit two's-complement range `-2147483648 .. 2147483647`. The operands of every `int`
operation of the source are `int` values themselves, so `x` is less than one period
(4294967296) away from that range and one correction is the reduction modulo
4294967296 (`int32_eq_mod` below). -/
def int32 (x : Int) : Int :=
  if 2147483647 < x then x - 4294967296
  else if x < -2147483648 then x + 4294967296
  else x

/-- Reading `buffer[i]` for an `int` index; `none` when the index is out of bounds. -/
def read_slot {ItemType : Type} (buffer : List ItemType) (i : Int) : Option ItemType :=
  if 0 ≤ i then buffer[i.toNat]? else none

/-- The assignment `buffer[i] = value`; `none` when the index is out of bounds. -/
def write_slot {ItemType : Type} (buffer : List ItemType) (i : Int) (value : ItemType) :
    Option (List ItemType) :=
  if 0 ≤ i ∧ i.toNat < buffer.length then some (buffer.set i.toNat value) else none

namespace RingQueue

variable {ItemType : Type}

/-- Constructor `RingQueue()`: both indices zero, every slot set to `ItemType()`. -/
def new (MAX_SIZE : Nat) [Inhabited ItemType] : RingQueue ItemType :=
  { buffer := List.replicate MAX_SIZE default, begin_index := 0, ring_size := 0 }

/-- Member `front()`: warns on an empty ring, then returns `buffer[begin_index]`. -/
def front (q : RingQueue ItemType) : Call (Option ItemType) :=
  { cerr := if q.ring_size = 0 then [Cerr.empty_ring] else []
    ret := read_slot q.buffer q.begin_index }

/-- Member `back()`: warns on an empty ring, then returns
`buffer[(begin_index+ring_size-1)%MAX_SIZE]`. -/
def back (MAX_SIZE : Nat) (q : RingQueue ItemType) : Call (Option ItemType) :=
  { cerr := if q.ring_size = 0 then [Cerr.empty_ring] else []
    ret := read_slot q.buffer
      ((int32 (int32 (q.begin_index + q.ring_size) - 1)).tmod MAX_SIZE) }

/-- Member `push_back(value)`. Both branches store at
`buffer[(begin_index+ring_size)%MAX_SIZE]`; the full branch then runs its two
consecutive `if` statements on `begin_index`. -/
def push_back (MAX_SIZE : Nat) (q : RingQueue ItemType) (value : ItemType) :
    Option (RingQueue ItemType) :=
  if q.ring_size < MAX_SIZE then
    match write_slot q.buffer ((int32 (q.begin_index + q.ring_size)).tmod MAX_SIZE) value with
    | none => none
    | some buf => some { q with buffer := buf, ring_size := int32 (q.ring_size + 1) }
  else
    match write_slot q.buffer ((int32 (q.begin_index + q.ring_size)).tmod MAX_SIZE) value with
    | none => none
    | some buf =>
      -- first `if`: the object was added at the literal end of the array
      let b1 : Int :=
        if q.begin_index = MAX_SIZE - 1 ∧
            (int32 (q.begin_index + q.ring_size)).tmod MAX_SIZE = q.begin_index then 0
        else q.begin_index
      -- second `if` (not an `else`): evaluated on the begin_index left by the first
      let b2 : Int :=
        if (int32 (b1 + q.ring_size)).tmod MAX_SIZE = b1 then int32 (b1 + 1) else b1
      some { buffer := buf, begin_index := b2, ring_size := q.ring_size }

/-- Member `pop_front()`. -/
def pop_front (MAX_SIZE : Nat) (q : RingQueue ItemType) : Call (RingQueue ItemType) :=
  if q.ring_size = 0 then
    { cerr := [Cerr.pop_on_empty], ret := q }
  else
    { cerr := []
      ret := { q with
        ring_size := int32 (q.ring_size - 1)
        begin_index :=
          if q.begin_index = MAX_SIZE - 1 then 0 else int32 (q.begin_index + 1) } }

/-- Member `size()`: `ring_size` converted from `int` to `size_t`. -/
def size (q : RingQueue ItemType) : Nat :=
  (q.ring_size % 18446744073709551616).toNat

/-- Nested class `RingQueue::iterator`. The pointer `parent` is kept as the identity
(address) of the queue it points to; the state of that queue is passed to the
operators that go through the pointer. -/
structure iterator where
  parent : Nat
  offset : Int
  deriving DecidableEq, Repr

/-- Member `begin()` of the queue living at address `self`. -/
def begin (self : Nat) (_q : RingQueue ItemType) : iterator :=
  { parent := self, offset := 0 }

/-- Member `end()` of the queue living at address `self`. -/
def end_ (self : Nat) (q : RingQueue ItemType) : iterator :=
  { parent := self, offset := q.ring_size }

namespace iterator

/-- The dereference `operator*`: `parent->buffer[(parent->begin_index + offset) % MAX_SIZE]`,
where `q` is the state of the queue `parent` points to. -/
def deref (MAX_SIZE : Nat) (q : RingQueue ItemType) (it : iterator) : Option ItemType :=
  read_slot q.buffer ((int32 (q.begin_index + it.offset)).tmod MAX_SIZE)

/-- Pre-increment `operator++`. -/
def incr (it : iterator) : iterator :=
  { it with offset := int32 (it.offset + 1) }

/-- The comparison `operator!=`. -/
def ne (it rhs : iterator) : Bool :=
  if it.parent = rhs.parent ∧ it.offset = rhs.offset then false else true

/-- The comparison `operator==`, as written:
`return ((parent == rhs.parent) && (offset = rhs.offset));`.
The right operand of `&&` is an assignment. It is evaluated only when the parents are
equal; it stores `rhs.offset` in `offset`, and its value converted to `bool` is
`rhs.offset != 0`. The result is the returned `bool` together with `*this` after the call.
The member is declared `const`, so a compiler rejects the assignment once the operator
is instantiated (the driver never calls it); this is the meaning of the expression
with that qualifier set aside. -/
def eq (it rhs : iterator) : Bool × iterator :=
  if it.parent = rhs.parent then
    (decide (rhs.offset ≠ 0), { it with offset := rhs.offset })
  else
    (false, it)

end iterator

/-- State of the queue after a call of `front()`. The member is `const` and its body
(lines 143-146) reads `ring_size`, `buffer` and `begin_index` and writes to `std::cerr`
only: no data member is assigned. -/
def after_front (q : RingQueue ItemType) : RingQueue ItemType :=
  q

/-- State of the queue after a call of `back()`. The member is `const` and its body
(lines 152-155) assigns to no data member. -/
def after_back (_MAX_SIZE : Nat) (q : RingQueue ItemType) : RingQueue ItemType :=
  q

/-- State of the queue after a call of `size()`. The member is `const` and its body
(lines 227-229) is `return ring_size;`. -/
def after_size (q : RingQueue ItemType) : RingQueue ItemType :=
  q

/-- Member `dump_queue()`: prints every physical slot, `buffer[0]` first. -/
def dump_queue (q : RingQueue ItemType) : List ItemType :=
  q.buffer

/-- Successive `push_back` calls, one per value, in list order
(the loop at the top of `main`, for any values). -/
def push_all (MAX_SIZE : Nat) (q : RingQueue ItemType) : List ItemType →
    Option (RingQueue ItemType)
  | [] => some q
  | v :: vs =>
    match push_back MAX_SIZE q v with
    | none => none
    | some q1 => push_all MAX_SIZE q1 vs

/-- Body of the loop "Queue via size" of `main`:
`for (size_t i = 0; i < rq.size(); ++i) { print *it; ++it; }`,
with the number of rounds still to run as first argument. -/
def size_loop (MAX_SIZE : Nat) (q : RingQueue ItemType) : Nat → iterator →
    Option (List ItemType)
  | 0, _ => some []
  | n + 1, it =>
    match it.deref MAX_SIZE q with
    | none => none
    | some v =>
      match size_loop MAX_SIZE q n it.incr with
      | none => none
      | some rest => some (v :: rest)

/-- The loop "Queue via size" of `main`: the values it prints. -/
def queue_via_size (MAX_SIZE : Nat) (self : Nat) (q : RingQueue ItemType) :
    Option (List ItemType) :=
  size_loop MAX_SIZE q (size q) (begin self q)

/-- Body of the loop "Queue via iterators" of `main`:
`for (; it != rq.end(); ++it) { print *it; }`. The first argument bounds the number
of evaluations of the loop condition; `none` when it is used up before the loop
ends, or when a dereference is out of bounds. -/
def iter_loop (MAX_SIZE : Nat) (self : Nat) (q : RingQueue ItemType) : Nat → iterator →
    Option (List ItemType)
  | 0, _ => none
  | fuel + 1, it =>
    if it.ne (end_ self q) then
      match it.deref MAX_SIZE q with
      | none => none
      | some v =>
        match iter_loop MAX_SIZE self q fuel it.incr with
        | none => none
        | some rest => some (v :: rest)
    else some []

/-- The loop "Queue via iterators" of `main`, started at `begin()`. -/
def queue_via_iterators (MAX_SIZE : Nat) (self : Nat) (q : RingQueue ItemType)
    (fuel : Nat) : Option (List ItemType) :=
  iter_loop MAX_SIZE self q fuel (begin self q)

/-- The values returned by `n` rounds of `front()` followed by `pop_front()`. -/
def drain (MAX_SIZE : Nat) : Nat → RingQueue ItemType → Option (List ItemType)
  | 0, _ => some []
  | n + 1, q =>
    match (front q).ret with
    | none => none
    | some v =>
      match drain MAX_SIZE n (pop_front MAX_SIZE q).ret with
      | none => none
      | some rest => some (v :: rest)

/-- One call of a mutator. -/
inductive Op (ItemType : Type) where
  | push (value : ItemType)
  | pop
  deriving DecidableEq, Repr

/-- A sequence of `push_back(v)` / `pop_front()` calls, in list order. -/
def run (MAX_SIZE : Nat) (q : RingQueue ItemType) : List (Op ItemType) →
    Option (RingQueue ItemType)
  | [] => some q
  | Op.push v :: ops =>
    match push_back MAX_SIZE q v with
    | none => none
    | some q1 => run MAX_SIZE q1 ops
  | Op.pop :: ops => run MAX_SIZE (pop_front MAX_SIZE q).ret ops

/-- Whether a sequence of calls started in state `q` goes through without an
out-of-bounds store and never calls `pop_front()` while `ring_size` is 0. -/
def never_pops_empty (MAX_SIZE : Nat) (q : RingQueue ItemType) : List (Op ItemType) → Bool
  | [] => true
  | Op.push v :: ops =>
    match push_back MAX_SIZE q v with
    | none => false
    | some q1 => never_pops_empty MAX_SIZE q1 ops
  | Op.pop :: ops =>
    decide (q.ring_size ≠ 0) && never_pops_empty MAX_SIZE (pop_front MAX_SIZE q).ret ops

/-- State of `rq` in `main` after the loop `for i in 0..7: rq.push_back(i+1)`
on `RingQueue<int,7>`. -/
def main_pushed : Option (RingQueue Int) :=
  push_all 7 (new 7) ((List.range 8).map fun i => (i : Int) + 1)

/-- State of `rq` in `main` after the `rq.pop_front()` that follows the pushes. -/
def main_popped : Option (RingQueue Int) :=
  match main_pushed with
  | none => none
  | some rq => some (pop_front 7 rq).ret

end RingQueue

/-- The reference bounded FIFO of the specification, a plain list, oldest first:
push appends the value and drops the head when the length is already `N`. -/
def ref_push {ItemType : Type} (N : Nat) (l : List ItemType) (v : ItemType) : List ItemType :=
  if l.length = N then l.tail ++ [v] else l ++ [v]

/-- The reference bounded FIFO of the specification: pop drops the head. -/
def ref_pop {ItemType : Type} (l : List ItemType) : List ItemType :=
  l.tail

/-- The reference bounded FIFO run on a sequence of calls, starting from `l`. -/
def ref_run {ItemType : Type} (N : Nat) (l : List ItemType) :
    List (RingQueue.Op ItemType) → List ItemType
  | [] => l
  | RingQueue.Op.push v :: ops => ref_run N (ref_push N l v) ops
  | RingQueue.Op.pop :: ops => ref_run N (ref_pop l) ops

/-- Data-model invariant of the specification for capacity `N`, together with the
fact that the array has `N` slots. -/
def ring_invariant {ItemType : Type} (N : Nat) (q : RingQueue ItemType) : Prop :=
  q.buffer.length = N ∧ 0 ≤ q.begin_index ∧ q.begin_index < N ∧
    0 ≤ q.ring_size ∧ q.ring_size ≤ N

/-- The part of the data-model invariant that does not bound `begin_index` from above:
the array has `N` slots, `begin_index` is not negative and `0 ≤ ring_size ≤ N`. -/
def ring_bounds {ItemType : Type} (N : Nat) (q : RingQueue ItemType) : Prop :=
  q.buffer.length = N ∧ 0 ≤ q.begin_index ∧ 0 ≤ q.ring_size ∧ q.ring_size ≤ N

/-! ## Index arithmetic and slot access -/

section helpers

variable {ItemType : Type}

theorem tmod_natCast (a N : Nat) : ((a : Int)).tmod (N : Int) = ((a % N : Nat) : Int) :=
  (Int.ofNat_tmod a N).symm

theorem read_slot_natCast (buf : List ItemType) (i : Nat) :
    read_slot buf (i : Int) = buf[i]? := by
  simp [read_slot]

theorem write_slot_natCast (buf : List ItemType) (i : Nat) (v : ItemType)
    (h : i < buf.length) : write_slot buf (i : Int) v = some (buf.set i v) := by
  simp [write_slot, h]

theorem size_natCast (buf : List ItemType) (b : Int) (k : Nat) (hk : k ≤ 2147483647) :
    RingQueue.size (⟨buf, b, (k : Int)⟩ : RingQueue ItemType) = k := by
  unfold RingQueue.size
  simp only
  omega

theorem add_mod_ne_of_lt (N b i j : Nat) (hij : i < j) (hj : j < N) :
    (b + i) % N ≠ (b + j) % N := by
  intro h
  have h1 : i % N = j % N := Nat.ModEq.add_left_cancel' b h
  rw [Nat.mod_eq_of_lt (by omega), Nat.mod_eq_of_lt hj] at h1
  omega

theorem int32_of_range (x : Int) (h0 : -2147483648 ≤ x) (h1 : x ≤ 2147483647) :
    int32 x = x := by
  unfold int32
  rw [if_neg (by omega), if_neg (by omega)]

/-- On every value that an operation on two `int` operands can have, `int32` is the
reduction modulo 4294967296 into the two's-complement range. -/
theorem int32_eq_mod (x : Int) (h0 : -6442450944 ≤ x) (h1 : x < 6442450944) :
    int32 x = (x + 2147483648) % 4294967296 - 2147483648 := by
  unfold int32
  split_ifs <;> omega

theorem int32_add_natCast (a b : Nat) (h : a + b ≤ 2147483647) :
    int32 ((a : Int) + (b : Int)) = ((a + b : Nat) : Int) := by
  rw [int32_of_range _ (by omega) (by omega)]
  push_cast
  rfl

end helpers

/-! ## Filling a fresh queue without reaching capacity -/

section filling

variable {ItemType : Type}

/-- A queue whose first slots hold `pre`, the rest the filler `d`, with `begin_index = 0`,
receives `vs` in the following slots as long as the capacity is not exceeded. -/
theorem push_all_prefix (N : Nat) (d : ItemType) (vs pre : List ItemType)
    (hmax : N ≤ 2147483647) (h : pre.length + vs.length ≤ N) :
    RingQueue.push_all N ⟨pre ++ List.replicate (N - pre.length) d, 0, (pre.length : Int)⟩ vs
      = some ⟨(pre ++ vs) ++ List.replicate (N - (pre ++ vs).length) d, 0,
          ((pre ++ vs).length : Int)⟩ := by
  induction vs generalizing pre with
  | nil => simp [RingQueue.push_all]
  | cons v vs ih =>
    have hlen : pre.length + (vs.length + 1) ≤ N := by simpa using h
    have hlt : pre.length < N := by omega
    have hidx : (int32 ((0 : Int) + (pre.length : Int))).tmod (N : Int)
        = ((pre.length : Nat) : Int) := by
      rw [Int.zero_add, int32_of_range _ (by omega) (by omega), tmod_natCast,
        Nat.mod_eq_of_lt hlt]
    have hsz : int32 ((pre.length : Int) + 1) = (((pre ++ [v]).length : Nat) : Int) := by
      rw [int32_of_range _ (by omega) (by omega), List.length_append, List.length_singleton]
      push_cast
      rfl
    have hbuf : (pre ++ List.replicate (N - pre.length) d).set pre.length v
        = (pre ++ [v]) ++ List.replicate (N - (pre ++ [v]).length) d := by
      have hrep : List.replicate (N - pre.length) d
          = d :: List.replicate (N - (pre.length + 1)) d := by
        have : N - pre.length = (N - (pre.length + 1)) + 1 := by omega
        rw [this, List.replicate_succ]
      rw [List.set_append_right _ _ (Nat.le_refl _), Nat.sub_self, hrep]
      simp
    have hstep : RingQueue.push_back N
        ⟨pre ++ List.replicate (N - pre.length) d, 0, (pre.length : Int)⟩ v
        = some ⟨(pre ++ [v]) ++ List.replicate (N - (pre ++ [v]).length) d, 0,
            ((pre ++ [v]).length : Int)⟩ := by
      have hlt2 : ((pre.length : Nat) : Int) < (N : Int) := by exact_mod_cast hlt
      unfold RingQueue.push_back
      simp only [hlt2, if_true, hidx]
      rw [write_slot_natCast _ _ _ (by rw [List.length_append, List.length_replicate]; omega),
        hbuf]
      simp only [hsz]
    have ih2 := ih (pre ++ [v]) (by simp; omega)
    simp only [RingQueue.push_all, hstep]
    simpa using ih2

end filling

/-! ## The two ways of reading the logical content -/

section reading

variable {ItemType : Type}

/-- Two lists of the same length that agree below that length are equal. -/
theorem list_eq_of_pointwise (l1 l2 : List ItemType) (n : Nat)
    (h1 : l1.length = n) (h2 : l2.length = n)
    (h : ∀ i, i < n → l1[i]? = l2[i]?) : l1 = l2 := by
  apply List.ext_getElem?
  intro i
  by_cases hi : i < n
  · exact h i hi
  · rw [List.getElem?_eq_none (by omega), List.getElem?_eq_none (by omega)]

/-- A dereference at an offset for which `begin_index + offset` fits an `int` reads
slot `(begin_index + offset) mod N`. -/
theorem deref_natCast (N self : Nat) (buf : List ItemType) (sz : Int) (b o : Nat)
    (h : b + o ≤ 2147483647) :
    RingQueue.iterator.deref N ⟨buf, (b : Int), sz⟩ ⟨self, (o : Int)⟩ = buf[(b + o) % N]? := by
  have hidx : (int32 ((b : Int) + (o : Int))).tmod (N : Int) = (((b + o) % N : Nat) : Int) := by
    rw [int32_add_natCast b o h, tmod_natCast]
  simp only [RingQueue.iterator.deref, hidx, read_slot_natCast]

/-- The iterator loop started at offset `o`, `m` positions before `end()`, yields the
`m` slots `(begin_index + o + i) mod N`, given more than `m` units of fuel, when
`begin_index + ring_size - 1` and `ring_size` fit an `int`. -/
theorem iter_loop_slots (N self : Nat) (buf : List ItemType) (b sz : Nat)
    (hlen : buf.length = N) (hN : 0 < N) (hfit : b + sz ≤ 2147483648)
    (hsz : sz ≤ 2147483647) :
    ∀ (m o : Nat), o + m = sz → ∀ fuel, m < fuel →
      ∃ l, RingQueue.iter_loop N self ⟨buf, (b : Int), (sz : Int)⟩ fuel ⟨self, (o : Int)⟩
          = some l ∧ l.length = m ∧ ∀ i, i < m → l[i]? = buf[(b + o + i) % N]? := by
  intro m
  induction m with
  | zero =>
    intro o ho fuel hfuel
    obtain ⟨f, rfl⟩ : ∃ f, fuel = f + 1 := ⟨fuel - 1, by omega⟩
    have : o = sz := by omega
    subst this
    refine ⟨[], ?_, rfl, fun i hi => absurd hi (Nat.not_lt_zero i)⟩
    simp [RingQueue.iter_loop, RingQueue.iterator.ne, RingQueue.end_]
  | succ m ih =>
    intro o ho fuel hfuel
    obtain ⟨f, rfl⟩ : ∃ f, fuel = f + 1 := ⟨fuel - 1, by omega⟩
    have hne : ((o : Int) = (sz : Int)) = False := by
      simp only [eq_iff_iff, iff_false]; omega
    have hderef := deref_natCast N self buf (sz : Int) b o (by omega)
    have hin : (b + o) % N < buf.length := by rw [hlen]; exact Nat.mod_lt _ hN
    have hincr : RingQueue.iterator.incr ⟨self, (o : Int)⟩ = ⟨self, ((o + 1 : Nat) : Int)⟩ := by
      have : int32 ((o : Int) + 1) = ((o + 1 : Nat) : Int) := by
        rw [int32_of_range _ (by omega) (by omega)]; push_cast; rfl
      simp only [RingQueue.iterator.incr, this]
    obtain ⟨l, hl, hlenl, hpt⟩ := ih (o + 1) (by omega) f (by omega)
    refine ⟨buf[(b + o) % N] :: l, ?_, by simp only [List.length_cons, hlenl], ?_⟩
    · rw [RingQueue.iter_loop]
      simp only [RingQueue.iterator.ne, RingQueue.end_, hne, and_false, if_false, if_true,
        hderef, List.getElem?_eq_getElem hin, hincr, hl]
    · intro i hi
      cases i with
      | zero => simp only [List.getElem?_cons_zero, Nat.add_zero, List.getElem?_eq_getElem hin]
      | succ j =>
        have := hpt j (by omega)
        simp only [List.getElem?_cons_succ, this]
        congr 2
        omega

/-- The state after `pop_front()` on a ring that is not empty, for a capacity that
fits an `int`: `ring_size - 1` and `begin_index + 1` taken modulo `N`. -/
theorem pop_front_natCast (N : Nat) (buf : List ItemType) (b sz : Nat)
    (hmax : N ≤ 2147483647) (hb : b < N) (hsz : 0 < sz) (hszN : sz ≤ 2147483647) :
    RingQueue.pop_front N (⟨buf, (b : Int), (sz : Int)⟩ : RingQueue ItemType)
      = ⟨[], ⟨buf, (((b + 1) % N : Nat) : Int), ((sz - 1 : Nat) : Int)⟩⟩ := by
  have hsz0 : ((sz : Int) = 0) = False := by
    simp only [eq_iff_iff, iff_false]; omega
  have h1 : int32 ((sz : Int) - 1) = ((sz - 1 : Nat) : Int) := by
    rw [int32_of_range _ (by omega) (by omega)]; omega
  have hb1 : (if (b : Int) = (N : Int) - 1 then (0 : Int) else int32 ((b : Int) + 1))
      = (((b + 1) % N : Nat) : Int) := by
    by_cases hlast : b + 1 = N
    · have h2 : (b : Int) = (N : Int) - 1 := by omega
      rw [if_pos h2, hlast, Nat.mod_self]; rfl
    · have h2 : ¬ (b : Int) = (N : Int) - 1 := by omega
      rw [if_neg h2, Nat.mod_eq_of_lt (by omega), int32_of_range _ (by omega) (by omega)]
      push_cast; rfl
  simp only [RingQueue.pop_front, hsz0, if_false, h1, hb1]

end reading

/-! ## The full branch of `push_back` -/

section full_branch

variable {ItemType : Type}

/-- What `push_back` does on a full queue satisfying the invariant, when
`begin_index + ring_size` fits an `int`: the value goes to slot `begin_index`,
`ring_size` stays, and `begin_index` moves to the next slot, except from the last slot
`N - 1`, where both `if` statements fire and it ends at 1. -/
theorem push_back_full_state (N : Nat) (q : RingQueue ItemType) (value : ItemType)
    (hinv : ring_invariant N q) (hfull : q.ring_size = N)
    (hfit : q.begin_index + q.ring_size ≤ 2147483647) :
    RingQueue.push_back N q value
      = some ⟨q.buffer.set q.begin_index.toNat value,
          if q.begin_index = (N : Int) - 1 then 1 else q.begin_index + 1, q.ring_size⟩ := by
  obtain ⟨buf, b, sz⟩ := q
  obtain ⟨hlen, hb0, hbN, -, -⟩ := hinv
  simp only at hlen hb0 hbN hfull hfit
  subst hfull
  lift b to ℕ using hb0
  have hbN1 : b < N := by exact_mod_cast hbN
  have hidx : (int32 ((b : Int) + (N : Int))).tmod (N : Int) = (b : Int) := by
    rw [int32_add_natCast b N (by omega), tmod_natCast, Nat.add_mod_right,
      Nat.mod_eq_of_lt hbN1]
  have hzero : (int32 ((0 : Int) + (N : Int))).tmod (N : Int) = 0 := by
    rw [Int.zero_add, int32_of_range _ (by omega) (by omega), tmod_natCast, Nat.mod_self]
    rfl
  have hone : int32 ((0 : Int) + 1) = 1 := by decide
  have hsucc : int32 ((b : Int) + 1) = (b : Int) + 1 :=
    int32_of_range _ (by omega) (by omega)
  have hin : b < buf.length := by rw [hlen]; exact hbN1
  unfold RingQueue.push_back
  simp only [lt_self_iff_false, if_false, hidx, and_true, Int.toNat_ofNat,
    write_slot_natCast _ _ _ hin]
  by_cases hlast : (b : Int) = (N : Int) - 1
  · simp only [hlast, if_true, hzero, hone]
  · simp only [hlast, if_false, hidx, if_true, hsucc]

theorem push_all_append (N : Nat) (vs ws : List ItemType) (q : RingQueue ItemType) :
    RingQueue.push_all N q (vs ++ ws)
      = (RingQueue.push_all N q vs).bind fun q1 => RingQueue.push_all N q1 ws := by
  induction vs generalizing q with
  | nil => simp [RingQueue.push_all]
  | cons v vs ih =>
    simp only [List.cons_append, RingQueue.push_all]
    cases RingQueue.push_back N q v with
    | none => rfl
    | some q1 => exact ih q1

/-- For a capacity of at least 2 and below `INT_MAX` (so that `begin_index + ring_size`
fits an `int` after the overwrite) the first overwrite is right: `N` pushes followed by
one more leave `size()` at `N`, and iteration, `front()` and `back()` see the last `N`
values in push order. -/
theorem overwrite_first_wrap [Inhabited ItemType] (N self : Nat) (a : ItemType)
    (t : List ItemType) (v : ItemType) (hN : 2 ≤ N) (hmax : N ≤ 2147483646)
    (hlen : (a :: t).length = N) :
    ∃ q, RingQueue.push_all N (RingQueue.new N) ((a :: t) ++ [v]) = some q ∧
      RingQueue.size q = N ∧
      (∀ fuel, N < fuel → RingQueue.queue_via_iterators N self q fuel = some (t ++ [v])) ∧
      (RingQueue.front q).ret = (t ++ [v]).head? ∧
      (RingQueue.back N q).ret = some v := by
  have hfill := push_all_prefix N (default : ItemType) (a :: t) [] (by omega)
    (by simp at hlen ⊢; omega)
  simp only [List.nil_append, List.length_nil, Nat.sub_zero, Nat.cast_zero, hlen, Nat.sub_self,
    List.replicate_zero, List.append_nil] at hfill
  have hinv : ring_invariant N (⟨a :: t, 0, (N : Int)⟩ : RingQueue ItemType) :=
    ⟨hlen, le_refl _, by simp only; omega, by simp only; omega, le_refl _⟩
  have hpush := push_back_full_state N ⟨a :: t, 0, (N : Int)⟩ v hinv rfl
    (by simp only; omega)
  have hne : ((0 : Int) = (N : Int) - 1) = False := by
    simp only [eq_iff_iff, iff_false]; omega
  simp only [hne, if_false, Int.toNat_zero, List.set_cons_zero, Int.zero_add] at hpush
  have htl : t.length + 1 = N := by simpa using hlen
  refine ⟨⟨v :: t, 1, (N : Int)⟩, ?_, size_natCast _ _ _ (by omega), ?_, ?_, ?_⟩
  · change RingQueue.push_all N (RingQueue.new N) ((a :: t) ++ [v]) = _
    rw [push_all_append]
    change (RingQueue.push_all N ⟨List.replicate N default, 0, 0⟩ (a :: t)).bind _ = _
    rw [hfill]
    simp only [Option.some_bind, RingQueue.push_all, hpush]
  · intro fuel hfuel
    obtain ⟨l, hl, hlenl, hpt⟩ :=
      iter_loop_slots N self (v :: t) 1 N (by simpa using htl) (by omega) (by omega)
        (by omega) N 0 (by omega) fuel hfuel
    have heq : l = t ++ [v] := by
      apply list_eq_of_pointwise l (t ++ [v]) N hlenl (by simpa using htl)
      intro i hi
      rw [hpt i hi]
      by_cases hlast : i + 1 = N
      · have h0 : (1 + 0 + i) % N = 0 := by
          have : 1 + 0 + i = N := by omega
          rw [this, Nat.mod_self]
        have hi2 : i = t.length := by omega
        rw [h0, hi2]
        simp
      · have h1 : (1 + 0 + i) % N = i + 1 := by
          rw [Nat.mod_eq_of_lt (by omega)]; omega
        rw [h1, List.getElem?_cons_succ, List.getElem?_append_left (by omega)]
    rw [← heq]
    simpa [RingQueue.queue_via_iterators, RingQueue.begin] using hl
  · have h1 : read_slot (v :: t) (1 : Int) = (v :: t)[1]? := read_slot_natCast _ 1
    simp only [RingQueue.front, h1, List.getElem?_cons_succ]
    cases t with
    | nil => simp at htl; omega
    | cons b t2 => simp
  · have hidx : (int32 (int32 ((1 : Int) + (N : Int)) - 1)).tmod (N : Int)
        = ((0 : Nat) : Int) := by
      have h2 : int32 (int32 ((1 : Int) + (N : Int)) - 1) = ((N : Nat) : Int) := by
        rw [int32_of_range ((1 : Int) + (N : Int)) (by omega) (by omega),
          int32_of_range _ (by omega) (by omega)]
        omega
      rw [h2, tmod_natCast, Nat.mod_self]
    simp only [RingQueue.back, hidx, read_slot_natCast]
    simp

end full_branch

/-! ## Single steps and reachable states -/

section steps

variable {ItemType : Type}

theorem tmod_range (x : Int) (N : Nat) (hx : 0 ≤ x) (hN : 0 < N) :
    0 ≤ x.tmod (N : Int) ∧ x.tmod (N : Int) < (N : Int) ∧
      x.tmod (N : Int) = x % (N : Int) := by
  lift x to ℕ using hx
  rw [tmod_natCast]
  refine ⟨Int.ofNat_nonneg _, ?_, by push_cast; rfl⟩
  exact_mod_cast Nat.mod_lt x hN

/-- In a state within `ring_bounds` where `begin_index + ring_size` fits an `int`,
`push_back` succeeds: it stores the value in slot `(begin_index + ring_size) mod N`,
takes `ring_size` to `min (ring_size + 1) N`, and leaves a `begin_index` that is not
negative and, for `N ≥ 2`, below `N` if it was. -/
theorem push_back_step (N : Nat) (q : RingQueue ItemType) (value : ItemType)
    (hN : 0 < N) (hmax : N ≤ 2147483647) (hq : ring_bounds N q)
    (hfit : q.begin_index + q.ring_size ≤ 2147483647) :
    ∃ b2 : Int, RingQueue.push_back N q value
        = some ⟨q.buffer.set ((q.begin_index + q.ring_size) % (N : Int)).toNat value, b2,
            min (q.ring_size + 1) N⟩ ∧
      0 ≤ b2 ∧ (2 ≤ N → q.begin_index < N → b2 < N) ∧
      (q.ring_size < N → b2 = q.begin_index) := by
  obtain ⟨buf, b, sz⟩ := q
  obtain ⟨hlen, hb0, hs0, hsN⟩ := hq
  simp only at hlen hb0 hs0 hsN hfit
  have hsum : int32 (b + sz) = b + sz := int32_of_range _ (by omega) (by omega)
  obtain ⟨hi0, hiN, hie⟩ := tmod_range (b + sz) N (by omega) hN
  have hw : write_slot buf ((int32 (b + sz)).tmod (N : Int)) value
      = some (buf.set ((b + sz) % (N : Int)).toNat value) := by
    have hin : ((b + sz).tmod (N : Int)).toNat < buf.length := by omega
    rw [hsum]
    rw [hie] at hi0 hin ⊢
    simp only [write_slot]
    rw [if_pos ⟨hi0, hin⟩]
  by_cases hlt : sz < (N : Int)
  · have hmin : min (sz + 1) (N : Int) = sz + 1 := min_eq_left (by omega)
    have hs1 : int32 (sz + 1) = sz + 1 := int32_of_range _ (by omega) (by omega)
    have hpush : RingQueue.push_back N ⟨buf, b, sz⟩ value
        = some ⟨buf.set ((b + sz) % (N : Int)).toNat value, b, min (sz + 1) N⟩ := by
      unfold RingQueue.push_back
      simp only [hw, hlt, if_true, hmin, hs1]
    exact ⟨b, hpush, hb0, fun _ h => h, fun _ => rfl⟩
  · have hszN : sz = (N : Int) := by omega
    have hmin : min (sz + 1) (N : Int) = sz := by
      rw [min_eq_right (by omega)]; omega
    have hb1 : int32 (b + 1) = b + 1 := int32_of_range _ (by omega) (by omega)
    have h01 : int32 ((0 : Int) + 1) = 1 := by decide
    have hpush : ∃ b2 : Int, RingQueue.push_back N ⟨buf, b, sz⟩ value
        = some ⟨buf.set ((b + sz) % (N : Int)).toNat value, b2, min (sz + 1) N⟩ ∧
        0 ≤ b2 ∧ (2 ≤ N → b < N → b2 < N) := by
      unfold RingQueue.push_back
      simp only [hw, hlt, if_false, hmin]
      refine ⟨_, rfl, ?_, ?_⟩
      · split_ifs <;> (try simp only [h01, hb1]) <;> omega
      · intro h2 hbN
        split_ifs <;> (try simp only [h01, hb1]) <;> omega
    obtain ⟨b2, h1, h2, h3⟩ := hpush
    exact ⟨b2, h1, h2, h3, fun h => absurd h hlt⟩

/-- Whenever `push_back` returns (its store is inside the array), `ring_size` goes to
`min (ring_size + 1) N`, whatever `begin_index` and the slots. -/
theorem push_back_size (N : Nat) (q q1 : RingQueue ItemType) (value : ItemType)
    (hmax : N ≤ 2147483647) (hs0 : 0 ≤ q.ring_size) (hsN : q.ring_size ≤ N)
    (h : RingQueue.push_back N q value = some q1) :
    q1.ring_size = min (q.ring_size + 1) N := by
  unfold RingQueue.push_back at h
  by_cases hlt : q.ring_size < (N : Int)
  · have hs1 : int32 (q.ring_size + 1) = q.ring_size + 1 :=
      int32_of_range _ (by omega) (by omega)
    rw [if_pos hlt] at h
    cases hw : write_slot q.buffer ((int32 (q.begin_index + q.ring_size)).tmod (N : Int)) value with
    | none => rw [hw] at h; exact absurd h (by simp)
    | some buf =>
      rw [hw] at h
      simp only [Option.some.injEq] at h
      rw [← h, min_eq_left (by omega)]
      exact hs1
  · rw [if_neg hlt] at h
    cases hw : write_slot q.buffer ((int32 (q.begin_index + q.ring_size)).tmod (N : Int)) value with
    | none => rw [hw] at h; exact absurd h (by simp)
    | some buf =>
      rw [hw] at h
      simp only [Option.some.injEq] at h
      rw [← h, min_eq_right (by omega)]
      show q.ring_size = (N : Int)
      omega

/-- The `ring_size` after `pop_front` is `max (ring_size - 1) 0` and the buffer is
kept, whatever `begin_index` and the slots. -/
theorem pop_front_size (N : Nat) (q : RingQueue ItemType)
    (hs0 : 0 ≤ q.ring_size) (hsmax : q.ring_size ≤ 2147483647) :
    (RingQueue.pop_front N q).ret.ring_size = max (q.ring_size - 1) 0 ∧
      (RingQueue.pop_front N q).ret.buffer = q.buffer := by
  unfold RingQueue.pop_front
  by_cases h0 : q.ring_size = 0
  · rw [if_pos h0]
    refine ⟨?_, rfl⟩
    show q.ring_size = max (q.ring_size - 1) 0
    rw [max_eq_right (by omega)]; exact h0
  · rw [if_neg h0]
    refine ⟨?_, rfl⟩
    show int32 (q.ring_size - 1) = max (q.ring_size - 1) 0
    rw [max_eq_left (by omega)]
    exact int32_of_range _ (by omega) (by omega)

/-- For a capacity that fits an `int`, `pop_front` keeps the invariant. -/
theorem pop_front_invariant (N : Nat) (q : RingQueue ItemType) (hmax : N ≤ 2147483647)
    (hinv : ring_invariant N q) : ring_invariant N (RingQueue.pop_front N q).ret := by
  obtain ⟨hlen, hb0, hbN, hs0, hsN⟩ := hinv
  obtain ⟨hsz, hbuf⟩ := pop_front_size N q hs0 (by omega)
  refine ⟨by rw [hbuf]; exact hlen, ?_, ?_, by rw [hsz]; exact le_max_right _ _, ?_⟩
  · unfold RingQueue.pop_front
    by_cases h0 : q.ring_size = 0
    · rw [if_pos h0]; exact hb0
    · rw [if_neg h0]
      show (0 : Int) ≤ if q.begin_index = (N : Int) - 1 then 0 else int32 (q.begin_index + 1)
      have := int32_of_range (q.begin_index + 1) (by omega) (by omega)
      split_ifs <;> omega
  · unfold RingQueue.pop_front
    by_cases h0 : q.ring_size = 0
    · rw [if_pos h0]; exact hbN
    · rw [if_neg h0]
      show (if q.begin_index = (N : Int) - 1 then 0 else int32 (q.begin_index + 1)) < (N : Int)
      have := int32_of_range (q.begin_index + 1) (by omega) (by omega)
      split_ifs <;> omega
  · rw [hsz]
    exact max_le (by omega) (by omega)

theorem ref_push_length (N : Nat) (l : List ItemType) (v : ItemType) (hN : 0 < N)
    (hl : l.length ≤ N) :
    (((ref_push N l v).length : Nat) : Int) = min ((l.length : Int) + 1) N := by
  unfold ref_push
  by_cases h : l.length = N
  · have : (l.tail ++ [v]).length = N := by simp [h]; omega
    simp only [h, if_true, this]
    rw [min_eq_right (by omega)]
  · have : (l ++ [v]).length = l.length + 1 := by simp
    simp only [h, if_false, this]
    rw [min_eq_left (by omega)]
    push_cast; rfl

theorem ref_pop_length (l : List ItemType) :
    (((ref_pop l).length : Nat) : Int) = max ((l.length : Int) - 1) 0 := by
  unfold ref_pop
  rw [List.length_tail]
  omega

/-- Whenever a sequence of calls runs to the end (no store outside the array), the
final `ring_size` is the length of the reference list and lies in `0 .. N`. -/
theorem run_sizes (N : Nat) (hN : 0 < N) (hmax : N ≤ 2147483647)
    (ops : List (RingQueue.Op ItemType)) :
    ∀ (q q1 : RingQueue ItemType) (l : List ItemType),
      q.ring_size = (l.length : Int) → l.length ≤ N →
      RingQueue.run N q ops = some q1 →
      q1.ring_size = ((ref_run N l ops).length : Int) ∧ (ref_run N l ops).length ≤ N := by
  induction ops with
  | nil =>
    intro q q1 l hl hlN hrun
    simp only [RingQueue.run, Option.some.injEq] at hrun
    subst hrun
    exact ⟨hl, hlN⟩
  | cons op ops ih =>
    intro q q1 l hl hlN hrun
    cases op with
    | push v =>
      simp only [RingQueue.run] at hrun
      cases hp : RingQueue.push_back N q v with
      | none => rw [hp] at hrun; exact absurd hrun (by simp)
      | some q2 =>
        rw [hp] at hrun
        have hsz := push_back_size N q q2 v hmax (by omega) (by omega) hp
        have hlen2 := ref_push_length N l v hN hlN
        have hl2 : q2.ring_size = (((ref_push N l v).length : Nat) : Int) := by
          rw [hsz, hlen2, hl]
        have hlN2 : (ref_push N l v).length ≤ N := by
          have : min ((l.length : Int) + 1) (N : Int) ≤ (N : Int) := min_le_right _ _
          omega
        exact ih q2 q1 (ref_push N l v) hl2 hlN2 hrun
    | pop =>
      simp only [RingQueue.run] at hrun
      obtain ⟨hsz, -⟩ := pop_front_size N q (by omega) (by omega)
      have hl2 : (RingQueue.pop_front N q).ret.ring_size
          = (((ref_pop l).length : Nat) : Int) := by
        rw [hsz, ref_pop_length, hl]
      have hlN2 : (ref_pop l).length ≤ N := by
        have := ref_pop_length l
        omega
      exact ih _ q1 (ref_pop l) hl2 hlN2 hrun

/-- For `2 ≤ N ≤ 2^30` every sequence of calls runs to the end from a state satisfying
the invariant, and the invariant holds in the final state. -/
theorem run_invariant (N : Nat) (hN : 2 ≤ N) (hcap : N ≤ 1073741824)
    (ops : List (RingQueue.Op ItemType)) :
    ∀ q : RingQueue ItemType, ring_invariant N q →
      ∃ q1, RingQueue.run N q ops = some q1 ∧ ring_invariant N q1 := by
  induction ops with
  | nil =>
    intro q hq
    exact ⟨q, rfl, hq⟩
  | cons op ops ih =>
    intro q hq
    cases op with
    | push v =>
      obtain ⟨hlen, hb0, hbN, hs0, hsN⟩ := hq
      obtain ⟨b2, hpush, hb20, hb2N, -⟩ :=
        push_back_step N q v (by omega) (by omega) ⟨hlen, hb0, hs0, hsN⟩ (by omega)
      have hq1 : ring_invariant N
          (⟨q.buffer.set ((q.begin_index + q.ring_size) % (N : Int)).toNat v, b2,
            min (q.ring_size + 1) N⟩ : RingQueue ItemType) := by
        refine ⟨by rw [List.length_set]; exact hlen, hb20, hb2N hN hbN, ?_, ?_⟩
        · exact le_min (by omega) (by omega)
        · exact min_le_right _ _
      obtain ⟨q1, hrun, hinv1⟩ := ih _ hq1
      refine ⟨q1, ?_, hinv1⟩
      simp only [RingQueue.run, hpush]
      exact hrun
    | pop =>
      obtain ⟨q1, hrun, hinv1⟩ := ih _ (pop_front_invariant N q (by omega) hq)
      exact ⟨q1, by simp only [RingQueue.run]; exact hrun, hinv1⟩

/-- At capacity 1 every index `% MAX_SIZE` is 0, so every sequence of calls runs to the
end from a state with a one-slot buffer. -/
theorem run_total_one (ops : List (RingQueue.Op ItemType)) :
    ∀ q : RingQueue ItemType, q.buffer.length = 1 →
      ∃ q1, RingQueue.run 1 q ops = some q1 := by
  induction ops with
  | nil =>
    intro q _
    exact ⟨q, rfl⟩
  | cons op ops ih =>
    intro q hq
    cases op with
    | push v =>
      have hidx : (int32 (q.begin_index + q.ring_size)).tmod ((1 : Nat) : Int) = 0 := by
        rw [Nat.cast_one]; exact Int.tmod_one _
      have hw : write_slot q.buffer ((int32 (q.begin_index + q.ring_size)).tmod ((1 : Nat) : Int)) v
          = some (q.buffer.set 0 v) := by
        rw [hidx]
        exact write_slot_natCast q.buffer 0 v (by omega)
      have hpush : ∃ q2, RingQueue.push_back 1 q v = some q2 ∧ q2.buffer.length = 1 := by
        unfold RingQueue.push_back
        by_cases hlt : q.ring_size < ((1 : Nat) : Int)
        · rw [if_pos hlt, hw]
          exact ⟨_, rfl, by rw [List.length_set]; exact hq⟩
        · rw [if_neg hlt, hw]
          exact ⟨_, rfl, by rw [List.length_set]; exact hq⟩
      obtain ⟨q2, hp, hlen2⟩ := hpush
      obtain ⟨q1, hrun⟩ := ih q2 hlen2
      exact ⟨q1, by simp only [RingQueue.run, hp]; exact hrun⟩
    | pop =>
      have hlen2 : (RingQueue.pop_front 1 q).ret.buffer.length = 1 := by
        unfold RingQueue.pop_front
        by_cases h0 : q.ring_size = 0
        · rw [if_pos h0]; exact hq
        · rw [if_neg h0]; exact hq
      obtain ⟨q1, hrun⟩ := ih _ hlen2
      exact ⟨q1, by simp only [RingQueue.run]; exact hrun⟩

theorem new_invariant [Inhabited ItemType] (N : Nat) (hN : 1 ≤ N) :
    ring_invariant N (RingQueue.new N : RingQueue ItemType) := by
  refine ⟨by simp only [RingQueue.new, List.length_replicate], le_refl _, ?_, le_refl _, ?_⟩
  · show (0 : Int) < (N : Int)
    omega
  · show (0 : Int) ≤ (N : Int)
    omega

/-- For `1 ≤ N ≤ 2^30` every sequence of calls on a fresh queue runs to the end. -/
theorem run_total [Inhabited ItemType] (N : Nat) (hN : 1 ≤ N) (hcap : N ≤ 1073741824)
    (ops : List (RingQueue.Op ItemType)) :
    ∃ q1, RingQueue.run N (RingQueue.new N : RingQueue ItemType) ops = some q1 := by
  by_cases h1 : N = 1
  · subst h1
    exact run_total_one ops _ (by simp only [RingQueue.new, List.length_replicate])
  · obtain ⟨q1, hrun, -⟩ := run_invariant N (by omega) hcap ops _ (new_invariant N hN)
    exact ⟨q1, hrun⟩

theorem read_slot_isSome (buf : List ItemType) (i : Int) (h0 : 0 ≤ i)
    (h1 : i < (buf.length : Int)) : (read_slot buf i).isSome = true := by
  lift i to ℕ using h0
  have : i < buf.length := by exact_mod_cast h1
  rw [read_slot_natCast, List.getElem?_eq_getElem this]
  rfl

/-- What `operator==` returns, as written: `true` exactly when the parents are equal
and the offset of the right operand is not zero. -/
theorem iterator_eq_true_iff (a b : RingQueue.iterator) :
    (RingQueue.iterator.eq a b).1 = true ↔ a.parent = b.parent ∧ b.offset ≠ 0 := by
  unfold RingQueue.iterator.eq
  by_cases h : a.parent = b.parent <;> simp [h]

end steps

/-! ## Claims -/

section claims

variable {ItemType : Type}

/-- C1 (fails on the code): capacity 2, pushes 1, 2, 3, 4 on a fresh queue. The fourth
push stores 4 in slot 1 and, through the two consecutive `if` statements, leaves
`begin_index` at 1 where the oldest retained value, 3, sits in slot 0: iteration
yields 4, 3, `front()` is 4 and `back()` is 3, where the last two pushed values in
push order are 3, 4. -/
theorem push_past_capacity_after_wrap :
    RingQueue.push_all 2 (RingQueue.new 2) [(1 : Int), 2, 3, 4] = some ⟨[3, 4], 1, 2⟩ ∧
      RingQueue.queue_via_iterators 2 0 (⟨[3, 4], 1, 2⟩ : RingQueue Int) 3 = some [4, 3] ∧
      (RingQueue.front (⟨[3, 4], 1, 2⟩ : RingQueue Int)).ret = some 4 ∧
      (RingQueue.back 2 (⟨[3, 4], 1, 2⟩ : RingQueue Int)).ret = some 3 := by
  decide

/-- C2 (fails on the code at capacity 1): pushes 10, 20 on a fresh queue of capacity 1
leave `size()` at 1 and iteration yields 20, but `begin_index` is 1, outside `0 .. N-1`,
so `front()` reads `buffer[1]`, past the end of the one-slot array. -/
theorem overwrite_capacity_one :
    RingQueue.push_all 1 (RingQueue.new 1) [(10 : Int), 20] = some ⟨[20], 1, 1⟩ ∧
      RingQueue.size (⟨[20], 1, 1⟩ : RingQueue Int) = 1 ∧
      RingQueue.queue_via_iterators 1 0 (⟨[20], 1, 1⟩ : RingQueue Int) 2 = some [20] ∧
      (RingQueue.back 1 (⟨[20], 1, 1⟩ : RingQueue Int)).ret = some 20 ∧
      (RingQueue.front (⟨[20], 1, 1⟩ : RingQueue Int)).ret = none := by
  decide

/-- C3 (fails on the code): capacity 2, calls push 1, push 2, pop, push 3, push 4, none
of them a pop on an empty buffer. The reference bounded FIFO holds 3, 4; the queue
yields 4, 3, both by iteration and by `front()` + `pop_front()` rounds. -/
theorem fifo_refinement_breaks :
    RingQueue.never_pops_empty 2 (RingQueue.new 2)
        [.push (1 : Int), .push 2, .pop, .push 3, .push 4] = true ∧
      RingQueue.run 2 (RingQueue.new 2) [.push (1 : Int), .push 2, .pop, .push 3, .push 4]
        = some ⟨[3, 4], 1, 2⟩ ∧
      RingQueue.queue_via_iterators 2 0 (⟨[3, 4], 1, 2⟩ : RingQueue Int) 3 = some [4, 3] ∧
      RingQueue.drain 2 2 (⟨[3, 4], 1, 2⟩ : RingQueue Int) = some [4, 3] ∧
      ref_run 2 [] [.push (1 : Int), .push 2, .pop, .push 3, .push 4] = [3, 4] := by
  decide

/-- C6: the driver on `RingQueue<int,7>`. After `push_back(1)` .. `push_back(8)`:
`size()` is 7, `front()` is 2, `back()` is 8, the physical buffer is 8,2,3,4,5,6,7 and
iteration from `begin()` to `end()` yields 2..8. After the `pop_front()`: `size()` is 6,
`front()` is 3, and both the loop counting `size()` steps and the loop running until
the cursor equals `end()` yield 3..8. No call writes a warning. -/
theorem driver_scenario :
    ∃ rq rq2 : RingQueue Int,
      RingQueue.main_pushed = some rq ∧
      RingQueue.size rq = 7 ∧
      RingQueue.front rq = ⟨[], some 2⟩ ∧
      RingQueue.back 7 rq = ⟨[], some 8⟩ ∧
      RingQueue.dump_queue rq = [8, 2, 3, 4, 5, 6, 7] ∧
      RingQueue.queue_via_iterators 7 0 rq 8 = some [2, 3, 4, 5, 6, 7, 8] ∧
      RingQueue.pop_front 7 rq = ⟨[], rq2⟩ ∧
      RingQueue.main_popped = some rq2 ∧
      RingQueue.size rq2 = 6 ∧
      RingQueue.front rq2 = ⟨[], some 3⟩ ∧
      RingQueue.queue_via_size 7 0 rq2 = some [3, 4, 5, 6, 7, 8] ∧
      RingQueue.queue_via_iterators 7 0 rq2 7 = some [3, 4, 5, 6, 7, 8] :=
  ⟨⟨[8, 2, 3, 4, 5, 6, 7], 1, 7⟩, ⟨[8, 2, 3, 4, 5, 6, 7], 2, 6⟩, by decide⟩

/-- C7 (fails on the code): on a fresh `RingQueue<int,1>` the three calls only write a
warning to `std::cerr`; `front()` and `back()` still return a value, the
default-initialised slot 0, and `pop_front()` returns normally with the queue unchanged. -/
theorem empty_ring_returns_value :
    RingQueue.front (RingQueue.new 1 : RingQueue Int) = ⟨[Cerr.empty_ring], some 0⟩ ∧
      RingQueue.back 1 (RingQueue.new 1 : RingQueue Int) = ⟨[Cerr.empty_ring], some 0⟩ ∧
      RingQueue.pop_front 1 (RingQueue.new 1 : RingQueue Int)
        = ⟨[Cerr.pop_on_empty], RingQueue.new 1⟩ := by
  decide

/-- C7 as amended: a fresh queue of capacity `N ≥ 1` has `size() == 0`; `front()`,
`back()` and `pop_front()` write a warning to `std::cerr` exactly when `ring_size` is 0
and then carry on: on the fresh queue `front()` returns the default-initialised
`buffer[0]`, and `pop_front()` on an empty ring returns with the queue unchanged. -/
theorem empty_ring_warns [Inhabited ItemType] (N : Nat) (hN : 1 ≤ N) :
    RingQueue.size (RingQueue.new N : RingQueue ItemType) = 0 ∧
      RingQueue.front (RingQueue.new N : RingQueue ItemType)
        = ⟨[Cerr.empty_ring], some default⟩ ∧
      RingQueue.pop_front N (RingQueue.new N : RingQueue ItemType)
        = ⟨[Cerr.pop_on_empty], RingQueue.new N⟩ ∧
      ∀ q : RingQueue ItemType,
        ((RingQueue.front q).cerr = [Cerr.empty_ring] ↔ q.ring_size = 0) ∧
        ((RingQueue.front q).cerr = [] ↔ q.ring_size ≠ 0) ∧
        ((RingQueue.back N q).cerr = [Cerr.empty_ring] ↔ q.ring_size = 0) ∧
        ((RingQueue.back N q).cerr = [] ↔ q.ring_size ≠ 0) ∧
        ((RingQueue.pop_front N q).cerr = [Cerr.pop_on_empty] ↔ q.ring_size = 0) ∧
        ((RingQueue.pop_front N q).cerr = [] ↔ q.ring_size ≠ 0) ∧
        (q.ring_size = 0 → (RingQueue.pop_front N q).ret = q) := by
  refine ⟨by simp [RingQueue.size, RingQueue.new], ?_, by simp [RingQueue.pop_front, RingQueue.new], ?_⟩
  · have h0 : (List.replicate N (default : ItemType))[0]? = some default :=
      List.getElem?_replicate_of_lt (by omega)
    have h1 : read_slot (List.replicate N (default : ItemType)) (0 : Int)
        = (List.replicate N (default : ItemType))[0]? := read_slot_natCast _ 0
    simp [RingQueue.front, RingQueue.new, h1, h0]
  · intro q
    by_cases h : q.ring_size = 0 <;> simp [RingQueue.front, RingQueue.back, RingQueue.pop_front, h]

/-- Witness for C7 as amended: capacity 2, items of type `int`. -/
theorem empty_ring_warns_witness :
    RingQueue.size (RingQueue.new 2 : RingQueue Int) = 0 ∧
      RingQueue.front (RingQueue.new 2 : RingQueue Int)
        = ⟨[Cerr.empty_ring], some default⟩ ∧
      RingQueue.pop_front 2 (RingQueue.new 2 : RingQueue Int)
        = ⟨[Cerr.pop_on_empty], RingQueue.new 2⟩ ∧
      ∀ q : RingQueue Int,
        ((RingQueue.front q).cerr = [Cerr.empty_ring] ↔ q.ring_size = 0) ∧
        ((RingQueue.front q).cerr = [] ↔ q.ring_size ≠ 0) ∧
        ((RingQueue.back 2 q).cerr = [Cerr.empty_ring] ↔ q.ring_size = 0) ∧
        ((RingQueue.back 2 q).cerr = [] ↔ q.ring_size ≠ 0) ∧
        ((RingQueue.pop_front 2 q).cerr = [Cerr.pop_on_empty] ↔ q.ring_size = 0) ∧
        ((RingQueue.pop_front 2 q).cerr = [] ↔ q.ring_size ≠ 0) ∧
        (q.ring_size = 0 → (RingQueue.pop_front 2 q).ret = q) :=
  empty_ring_warns 2 (by decide)

/-- C8 (fails on the code): capacity 2, the full state reached by pushes 1, 2, 3
(buffer 3,2 with `begin_index = 1 = N - 1`). `push_back(4)` stores 4 in slot 1 and
keeps `ring_size` at 2, but leaves `begin_index` at 1, where `(1 + 1) mod 2` is 0. -/
theorem push_back_full_at_last_slot :
    RingQueue.push_all 2 (RingQueue.new 2) [(1 : Int), 2, 3] = some ⟨[3, 2], 1, 2⟩ ∧
      RingQueue.push_back 2 (⟨[3, 2], 1, 2⟩ : RingQueue Int) 4 = some ⟨[3, 4], 1, 2⟩ ∧
      ((1 : Int) + 1) % ((2 : Nat) : Int) = 0 := by
  decide

/-- C9 (fails on the code): capacity 3, the full state reached by pushes 1..5
(buffer 4,5,3 with `begin_index = 2`, logical content 3, 4, 5). After `push_back(6)`
the state is buffer 4,5,6 with `begin_index = 1`: `back()` returns 4, not 6, and
`front()` returns 5, where logical position 1 before the push held 4. -/
theorem push_back_full_back_front :
    RingQueue.push_all 3 (RingQueue.new 3) [(1 : Int), 2, 3, 4, 5] = some ⟨[4, 5, 3], 2, 3⟩ ∧
      RingQueue.push_back 3 (⟨[4, 5, 3], 2, 3⟩ : RingQueue Int) 6 = some ⟨[4, 5, 6], 1, 3⟩ ∧
      (RingQueue.back 3 (⟨[4, 5, 6], 1, 3⟩ : RingQueue Int)).ret = some 4 ∧
      (RingQueue.front (⟨[4, 5, 6], 1, 3⟩ : RingQueue Int)).ret = some 5 ∧
      RingQueue.iterator.deref 3 (⟨[4, 5, 3], 2, 3⟩ : RingQueue Int) ⟨0, 1⟩ = some 4 := by
  decide

/-- C4: for a capacity `N ≥ 1` (an `int`, hence at most 2147483647) and values
`v1..vk` with `k ≤ N`, the `k` calls of `push_back` on a freshly constructed queue all
succeed, after them `size()` is `k`, and when `k ≥ 1` `front()` returns `v1` and
`back()` returns `vk`. -/
theorem push_within_capacity [Inhabited ItemType] (N : Nat) (vs : List ItemType)
    (hN : 1 ≤ N) (hmax : N ≤ 2147483647) (hk : vs.length ≤ N) :
    ∃ q, RingQueue.push_all N (RingQueue.new N) vs = some q ∧
      RingQueue.size q = vs.length ∧
      ∀ hne : vs ≠ [], (RingQueue.front q).ret = some (vs.head hne) ∧
        (RingQueue.back N q).ret = some (vs.getLast hne) := by
  have hfill := push_all_prefix N (default : ItemType) vs [] hmax (by simpa using hk)
  simp only [List.nil_append, List.length_nil, Nat.sub_zero, Nat.cast_zero] at hfill
  refine ⟨_, hfill, size_natCast _ _ _ (by omega), ?_⟩
  intro hne
  have hpos : 0 < vs.length := List.length_pos.mpr hne
  constructor
  · simp only [RingQueue.front]
    have : read_slot (vs ++ List.replicate (N - vs.length) (default : ItemType)) (0 : Int)
        = (vs ++ List.replicate (N - vs.length) (default : ItemType))[0]? :=
      read_slot_natCast _ 0
    rw [this, List.getElem?_append_left hpos, List.getElem?_eq_getElem hpos]
    cases vs with
    | nil => exact absurd rfl hne
    | cons a l => rfl
  · simp only [RingQueue.back]
    have hidx : (int32 (int32 ((0 : Int) + (vs.length : Int)) - 1)).tmod (N : Int)
        = ((vs.length - 1 : Nat) : Int) := by
      have h1 : int32 (int32 ((0 : Int) + (vs.length : Int)) - 1)
          = ((vs.length - 1 : Nat) : Int) := by
        rw [int32_of_range ((0 : Int) + (vs.length : Int)) (by omega) (by omega),
          int32_of_range _ (by omega) (by omega)]
        omega
      rw [h1, tmod_natCast, Nat.mod_eq_of_lt (by omega)]
    rw [hidx, read_slot_natCast, List.getElem?_append_left (by omega),
      List.getElem?_eq_getElem (by omega), List.getLast_eq_getElem]

/-- Witness for C4: capacity 3, values 10, 20. -/
theorem push_within_capacity_witness :
    ∃ q, RingQueue.push_all 3 (RingQueue.new 3) [(10 : Int), 20] = some q ∧
      RingQueue.size q = [(10 : Int), 20].length ∧
      ∀ hne : [(10 : Int), 20] ≠ [], (RingQueue.front q).ret = some ([(10 : Int), 20].head hne) ∧
        (RingQueue.back 3 q).ret = some ([(10 : Int), 20].getLast hne) :=
  push_within_capacity 3 [(10 : Int), 20] (by decide) (by decide) (by decide)

/-- C10 (fails on the code above capacity 2^30): capacity 2147483647, a state with
`begin_index = 2147483646` and `ring_size = 2`, which satisfies the invariant and is not
full. The sum `begin_index + ring_size` overflows `int`, the index is -1, and the store
of `push_back(9)` falls outside the array, where the claim has it in slot 1. -/
theorem push_back_not_full_overflow :
    ring_invariant 2147483647
        (⟨List.replicate 2147483647 0, 2147483646, 2⟩ : RingQueue Int) ∧
      (2 : Int) < ((2147483647 : Nat) : Int) ∧
      (int32 ((2147483646 : Int) + 2)).tmod ((2147483647 : Nat) : Int) = -1 ∧
      ((2147483646 : Int) + 2) % ((2147483647 : Nat) : Int) = 1 ∧
      RingQueue.push_back 2147483647
        (⟨List.replicate 2147483647 0, 2147483646, 2⟩ : RingQueue Int) 9 = none := by
  have hidx : (int32 ((2147483646 : Int) + 2)).tmod ((2147483647 : Nat) : Int) = -1 := by
    decide
  have hpush : ∀ buf : List Int,
      RingQueue.push_back 2147483647 (⟨buf, 2147483646, 2⟩ : RingQueue Int) 9 = none := by
    intro buf
    have hlt : (2 : Int) < ((2147483647 : Nat) : Int) := by decide
    have hw : write_slot buf (-1) (9 : Int) = none := by
      unfold write_slot
      rw [if_neg (by omega)]
    unfold RingQueue.push_back
    simp only [hlt, if_true, hidx, hw]
  exact ⟨⟨List.length_replicate _ _, by decide, by decide, by decide, by decide⟩,
    by decide, hidx, by decide, hpush _⟩

/-- C10 as amended: for a capacity `N ≤ 2^30`, in a state satisfying the invariant with
`ring_size < N`, `push_back(value)` succeeds, stores `value` in slot
`(begin_index + ring_size) mod N` (an index below `N`), adds exactly 1 to `ring_size`,
keeps `begin_index`, and evicts nothing: every logical position `i < old ring_size`
still dereferences to the value it had. -/
theorem push_back_not_full (N : Nat) (q : RingQueue ItemType) (value : ItemType)
    (hcap : N ≤ 1073741824) (hinv : ring_invariant N q) (hlt : q.ring_size < N) :
    ∃ q1, RingQueue.push_back N q value = some q1 ∧
      ((q.begin_index + q.ring_size) % (N : Int)).toNat < N ∧
      q1.buffer = q.buffer.set ((q.begin_index + q.ring_size) % (N : Int)).toNat value ∧
      read_slot q1.buffer ((q.begin_index + q.ring_size) % (N : Int)) = some value ∧
      q1.ring_size = q.ring_size + 1 ∧
      q1.begin_index = q.begin_index ∧
      ∀ (self : Nat) (i : Int), 0 ≤ i → i < q.ring_size →
        (RingQueue.iterator.deref N q ⟨self, i⟩).isSome = true ∧
        RingQueue.iterator.deref N q1 ⟨self, i⟩ = RingQueue.iterator.deref N q ⟨self, i⟩ := by
  obtain ⟨buf, b, sz⟩ := q
  obtain ⟨hlen, hb0, hbN, hs0, -⟩ := hinv
  simp only at hlen hb0 hbN hs0 hlt
  lift b to ℕ using hb0
  lift sz to ℕ using hs0
  have hbN1 : b < N := by exact_mod_cast hbN
  have hlt1 : sz < N := by exact_mod_cast hlt
  have hNpos : 0 < N := by omega
  have hidx : (int32 ((b : Int) + (sz : Int))).tmod (N : Int)
      = (((b + sz) % N : Nat) : Int) := by
    rw [int32_add_natCast b sz (by omega), tmod_natCast]
  have hidx2 : ((b : Int) + (sz : Int)) % (N : Int) = (((b + sz) % N : Nat) : Int) := by
    push_cast; rfl
  have hs1 : int32 ((sz : Int) + 1) = (sz : Int) + 1 :=
    int32_of_range _ (by omega) (by omega)
  have hin : (b + sz) % N < buf.length := by rw [hlen]; exact Nat.mod_lt _ hNpos
  refine ⟨⟨buf.set ((b + sz) % N) value, b, sz + 1⟩, ?_, ?_, ?_, ?_, rfl, rfl, ?_⟩
  · unfold RingQueue.push_back
    simp only [hlt, if_true, hidx, write_slot_natCast _ _ _ hin, hs1]
  · simp only [hidx2, Int.toNat_ofNat]; exact Nat.mod_lt _ hNpos
  · simp only [hidx2, Int.toNat_ofNat]
  · simp only [hidx2, read_slot_natCast]
    rw [List.getElem?_set_self hin]
  · intro self i hi0 hisz
    lift i to ℕ using hi0
    simp only at hisz
    have hi : i < sz := by exact_mod_cast hisz
    have hin3 : (b + i) % N < buf.length := by rw [hlen]; exact Nat.mod_lt _ hNpos
    rw [deref_natCast N self _ _ b i (by omega), deref_natCast N self _ _ b i (by omega)]
    constructor
    · rw [List.getElem?_eq_getElem hin3]; rfl
    · exact List.getElem?_set_ne (Ne.symm (add_mod_ne_of_lt N b i sz hi hlt1))

/-- Witness for C10 as amended: capacity 3, one element stored at slot 2, push of 9. -/
theorem push_back_not_full_witness :
    ∃ q1, RingQueue.push_back 3 (⟨[0, 0, 7], 2, 1⟩ : RingQueue Int) 9 = some q1 ∧
      (((2 : Int) + 1) % ((3 : Nat) : Int)).toNat < 3 ∧
      q1.buffer = ([0, 0, 7] : List Int).set (((2 : Int) + 1) % ((3 : Nat) : Int)).toNat 9 ∧
      read_slot q1.buffer (((2 : Int) + 1) % ((3 : Nat) : Int)) = some 9 ∧
      q1.ring_size = (1 : Int) + 1 ∧
      q1.begin_index = 2 ∧
      ∀ (self : Nat) (i : Int), 0 ≤ i → i < (1 : Int) →
        (RingQueue.iterator.deref 3 (⟨[0, 0, 7], 2, 1⟩ : RingQueue Int) ⟨self, i⟩).isSome = true ∧
        RingQueue.iterator.deref 3 q1 ⟨self, i⟩
          = RingQueue.iterator.deref 3 (⟨[0, 0, 7], 2, 1⟩ : RingQueue Int) ⟨self, i⟩ :=
  push_back_not_full 3 ⟨[0, 0, 7], 2, 1⟩ 9 (by decide) (by simp [ring_invariant]) (by decide)

/-- C11: for a capacity that fits an `int`, in a state satisfying the invariant with
`ring_size > 0`, `pop_front()` writes no warning, subtracts exactly 1 from `ring_size`,
sets `begin_index` to `(begin_index + 1) mod N` and keeps the buffer, so that for every
`i < new ring_size` the slot of logical position `i`, `(begin_index + i) mod N`, is now
the slot that logical position `i + 1` had, holding the same element; and where
`begin_index + i + 1` fits an `int`, the dereference at offset `i` now returns what the
dereference at offset `i + 1` returned. -/
theorem pop_front_not_empty (N : Nat) (q : RingQueue ItemType) (hmax : N ≤ 2147483647)
    (hinv : ring_invariant N q) (hpos : 0 < q.ring_size) :
    (RingQueue.pop_front N q).cerr = [] ∧
      (RingQueue.pop_front N q).ret.ring_size = q.ring_size - 1 ∧
      (RingQueue.pop_front N q).ret.begin_index = (q.begin_index + 1) % (N : Int) ∧
      (RingQueue.pop_front N q).ret.buffer = q.buffer ∧
      ∀ i : Int, 0 ≤ i → i < (RingQueue.pop_front N q).ret.ring_size →
        ((RingQueue.pop_front N q).ret.begin_index + i) % (N : Int)
          = (q.begin_index + (i + 1)) % (N : Int) ∧
        (read_slot q.buffer ((q.begin_index + (i + 1)) % (N : Int))).isSome = true ∧
        read_slot (RingQueue.pop_front N q).ret.buffer
            (((RingQueue.pop_front N q).ret.begin_index + i) % (N : Int))
          = read_slot q.buffer ((q.begin_index + (i + 1)) % (N : Int)) ∧
        (q.begin_index + (i + 1) ≤ 2147483647 → ∀ self : Nat,
          RingQueue.iterator.deref N q ⟨self, i + 1⟩
            = read_slot q.buffer ((q.begin_index + (i + 1)) % (N : Int)) ∧
          RingQueue.iterator.deref N (RingQueue.pop_front N q).ret ⟨self, i⟩
            = RingQueue.iterator.deref N q ⟨self, i + 1⟩) := by
  obtain ⟨buf, b, sz⟩ := q
  obtain ⟨hlen, hb0, hbN, hs0, hsN⟩ := hinv
  simp only at hlen hb0 hbN hs0 hsN hpos
  lift b to ℕ using hb0
  lift sz to ℕ using hs0
  have hbN1 : b < N := by exact_mod_cast hbN
  have hNpos : 0 < N := by omega
  have hret := pop_front_natCast N buf b sz hmax hbN1 (by omega) (by omega)
  rw [hret]
  refine ⟨rfl, by show (((sz - 1 : Nat) : Int)) = (sz : Int) - 1; omega,
    by show ((((b + 1) % N : Nat)) : Int) = ((b : Int) + 1) % (N : Int); push_cast; rfl,
    rfl, ?_⟩
  intro i hi0 _
  lift i to ℕ using hi0
  have hslot : ((b + 1) % N + i) % N = (b + (i + 1)) % N := by
    rw [Nat.mod_add_mod]
    congr 1
    omega
  have hnew : ((((b + 1) % N : Nat) : Int) + (i : Int)) % (N : Int)
      = (((b + (i + 1)) % N : Nat) : Int) := by
    rw [← hslot]; push_cast; rfl
  have hold : ((b : Int) + ((i : Int) + 1)) % (N : Int)
      = (((b + (i + 1)) % N : Nat) : Int) := by
    push_cast; rfl
  have hin : (b + (i + 1)) % N < buf.length := by
    rw [hlen]; exact Nat.mod_lt _ hNpos
  show ((((b + 1) % N : Nat) : Int) + (i : Int)) % (N : Int)
      = ((b : Int) + ((i : Int) + 1)) % (N : Int) ∧
    (read_slot buf (((b : Int) + ((i : Int) + 1)) % (N : Int))).isSome = true ∧
    read_slot buf (((((b + 1) % N : Nat) : Int) + (i : Int)) % (N : Int))
      = read_slot buf (((b : Int) + ((i : Int) + 1)) % (N : Int)) ∧
    ((b : Int) + ((i : Int) + 1) ≤ 2147483647 → ∀ self : Nat,
      RingQueue.iterator.deref N ⟨buf, (b : Int), (sz : Int)⟩ ⟨self, (i : Int) + 1⟩
        = read_slot buf (((b : Int) + ((i : Int) + 1)) % (N : Int)) ∧
      RingQueue.iterator.deref N ⟨buf, (((b + 1) % N : Nat) : Int), ((sz - 1 : Nat) : Int)⟩
          ⟨self, (i : Int)⟩
        = RingQueue.iterator.deref N ⟨buf, (b : Int), (sz : Int)⟩ ⟨self, (i : Int) + 1⟩)
  rw [hnew, hold, read_slot_natCast]
  refine ⟨rfl, by rw [List.getElem?_eq_getElem hin]; rfl, rfl, ?_⟩
  intro hfit self
  have hb1 : (b + 1) % N ≤ b + 1 := Nat.mod_le _ _
  have hd1 := deref_natCast N self buf (sz : Int) b (i + 1) (by omega)
  have hd2 := deref_natCast N self buf ((sz - 1 : Nat) : Int) ((b + 1) % N) i (by omega)
  have hcast : (((i + 1 : Nat)) : Int) = (i : Int) + 1 := by push_cast; rfl
  rw [hcast] at hd1
  rw [hd1, hd2, hslot]
  exact ⟨rfl, rfl⟩

/-- Witness for C11: capacity 3, two elements starting at the last slot. -/
theorem pop_front_not_empty_witness :
    (RingQueue.pop_front 3 (⟨[5, 0, 4], 2, 2⟩ : RingQueue Int)).cerr = [] ∧
      (RingQueue.pop_front 3 (⟨[5, 0, 4], 2, 2⟩ : RingQueue Int)).ret.ring_size = (2 : Int) - 1 ∧
      (RingQueue.pop_front 3 (⟨[5, 0, 4], 2, 2⟩ : RingQueue Int)).ret.begin_index
        = ((2 : Int) + 1) % ((3 : Nat) : Int) ∧
      (RingQueue.pop_front 3 (⟨[5, 0, 4], 2, 2⟩ : RingQueue Int)).ret.buffer = [5, 0, 4] ∧
      ∀ i : Int, 0 ≤ i →
        i < (RingQueue.pop_front 3 (⟨[5, 0, 4], 2, 2⟩ : RingQueue Int)).ret.ring_size →
        ((RingQueue.pop_front 3 (⟨[5, 0, 4], 2, 2⟩ : RingQueue Int)).ret.begin_index + i)
            % ((3 : Nat) : Int)
          = ((2 : Int) + (i + 1)) % ((3 : Nat) : Int) ∧
        (read_slot ([5, 0, 4] : List Int) (((2 : Int) + (i + 1)) % ((3 : Nat) : Int))).isSome
          = true ∧
        read_slot (RingQueue.pop_front 3 (⟨[5, 0, 4], 2, 2⟩ : RingQueue Int)).ret.buffer
            (((RingQueue.pop_front 3 (⟨[5, 0, 4], 2, 2⟩ : RingQueue Int)).ret.begin_index + i)
              % ((3 : Nat) : Int))
          = read_slot ([5, 0, 4] : List Int) (((2 : Int) + (i + 1)) % ((3 : Nat) : Int)) ∧
        ((2 : Int) + (i + 1) ≤ 2147483647 → ∀ self : Nat,
          RingQueue.iterator.deref 3 (⟨[5, 0, 4], 2, 2⟩ : RingQueue Int) ⟨self, i + 1⟩
            = read_slot ([5, 0, 4] : List Int) (((2 : Int) + (i + 1)) % ((3 : Nat) : Int)) ∧
          RingQueue.iterator.deref 3
              (RingQueue.pop_front 3 (⟨[5, 0, 4], 2, 2⟩ : RingQueue Int)).ret ⟨self, i⟩
            = RingQueue.iterator.deref 3 (⟨[5, 0, 4], 2, 2⟩ : RingQueue Int) ⟨self, i + 1⟩) :=
  pop_front_not_empty 3 ⟨[5, 0, 4], 2, 2⟩ (by decide) (by simp [ring_invariant]) (by decide)

/-- C12 (fails on the code at capacity 1): the constructor gives `begin_index = 0` and
`ring_size = 0`, and `push_back(5)` keeps the invariant, but `push_back(6)` on the now
full queue leaves `begin_index = 1`, outside `0 .. N-1`; a following `pop_front()` takes
it to 2. -/
theorem invariant_lost_capacity_one :
    (RingQueue.new 1 : RingQueue Int) = ⟨[0], 0, 0⟩ ∧
      RingQueue.push_back 1 (⟨[0], 0, 0⟩ : RingQueue Int) 5 = some ⟨[5], 0, 1⟩ ∧
      ring_invariant 1 (⟨[5], 0, 1⟩ : RingQueue Int) ∧
      RingQueue.push_back 1 (⟨[5], 0, 1⟩ : RingQueue Int) 6 = some ⟨[6], 1, 1⟩ ∧
      ¬ ring_invariant 1 (⟨[6], 1, 1⟩ : RingQueue Int) ∧
      RingQueue.pop_front 1 (⟨[6], 1, 1⟩ : RingQueue Int) = ⟨[], ⟨[6], 2, 0⟩⟩ := by
  refine ⟨by decide, by decide, by simp [ring_invariant], by decide,
    by simp [ring_invariant], by decide⟩

/-- C13 (fails on the code): `operator==` assigns instead of comparing. Two cursors on
the same queue, both at offset 0, compare as not equal; cursors at offsets 1 and 2 of
the same queue compare as equal, and the left one is left at offset 2. -/
theorem iterator_eq_assigns :
    RingQueue.iterator.eq ⟨0, 0⟩ ⟨0, 0⟩ = (false, ⟨0, 0⟩) ∧
      RingQueue.iterator.eq ⟨0, 1⟩ ⟨0, 2⟩ = (true, ⟨0, 2⟩) := by
  decide

/-- C14 (fails on the code): on a fresh (empty) `RingQueue<int,3>` both
`begin() == end()` and `begin() == begin()` return `false`; on a queue holding one
element `begin() == end()` returns `true`. -/
theorem begin_eq_end_inverted :
    (RingQueue.iterator.eq (RingQueue.begin 0 (RingQueue.new 3 : RingQueue Int))
        (RingQueue.end_ 0 (RingQueue.new 3 : RingQueue Int))).1 = false ∧
      (RingQueue.iterator.eq (RingQueue.begin 0 (RingQueue.new 3 : RingQueue Int))
        (RingQueue.begin 0 (RingQueue.new 3 : RingQueue Int))).1 = false ∧
      RingQueue.push_back 3 (RingQueue.new 3 : RingQueue Int) 7 = some ⟨[7, 0, 0], 0, 1⟩ ∧
      (RingQueue.iterator.eq (RingQueue.begin 0 (⟨[7, 0, 0], 0, 1⟩ : RingQueue Int))
        (RingQueue.end_ 0 (⟨[7, 0, 0], 0, 1⟩ : RingQueue Int))).1 = true := by
  decide

/-- C15 (fails on the code): on two cursors of the same queue at offset 0 both `!=` and
`==` return `false`; on cursors of the same queue at offsets 1 and 2 both return `true`. -/
theorem ne_not_negation_of_eq :
    RingQueue.iterator.ne ⟨0, 0⟩ ⟨0, 0⟩ = false ∧
      (RingQueue.iterator.eq ⟨0, 0⟩ ⟨0, 0⟩).1 = false ∧
      RingQueue.iterator.ne ⟨0, 1⟩ ⟨0, 2⟩ = true ∧
      (RingQueue.iterator.eq ⟨0, 1⟩ ⟨0, 2⟩).1 = true := by
  decide

/-- C16: for every capacity `N ≥ 1` that fits an `int`, `pop_front()` on a state with
`ring_size == 0` returns the state as it was (`begin_index`, `ring_size` and every
slot); in every state that a sequence of `push_back` / `pop_front` calls on a fresh
queue runs to, `ring_size` is not negative; and for `N ≤ 2^30` every such sequence does
run to a state. -/
theorem pop_front_empty_noop [Inhabited ItemType] (N : Nat) (hN : 1 ≤ N)
    (hmax : N ≤ 2147483647) :
    (∀ q : RingQueue ItemType, q.ring_size = 0 → (RingQueue.pop_front N q).ret = q) ∧
      (∀ (ops : List (RingQueue.Op ItemType)) (q : RingQueue ItemType),
        RingQueue.run N (RingQueue.new N) ops = some q → 0 ≤ q.ring_size) ∧
      (N ≤ 1073741824 → ∀ ops : List (RingQueue.Op ItemType),
        ∃ q, RingQueue.run N (RingQueue.new N) ops = some q ∧ 0 ≤ q.ring_size) := by
  have hsafe : ∀ (ops : List (RingQueue.Op ItemType)) (q : RingQueue ItemType),
      RingQueue.run N (RingQueue.new N) ops = some q → 0 ≤ q.ring_size := by
    intro ops q hrun
    obtain ⟨hs, -⟩ := run_sizes N (by omega) hmax ops (RingQueue.new N : RingQueue ItemType)
      q [] rfl (Nat.zero_le _) hrun
    rw [hs]
    exact Int.ofNat_nonneg _
  refine ⟨?_, hsafe, ?_⟩
  · intro q h
    simp [RingQueue.pop_front, h]
  · intro hcap ops
    obtain ⟨q, hrun⟩ := @run_total ItemType _ N hN hcap ops
    exact ⟨q, hrun, hsafe ops q hrun⟩

/-- Witness for C16: capacity 1, items of type `int`. -/
theorem pop_front_empty_noop_witness :
    (∀ q : RingQueue Int, q.ring_size = 0 → (RingQueue.pop_front 1 q).ret = q) ∧
      (∀ (ops : List (RingQueue.Op Int)) (q : RingQueue Int),
        RingQueue.run 1 (RingQueue.new 1) ops = some q → 0 ≤ q.ring_size) ∧
      (1 ≤ 1073741824 → ∀ ops : List (RingQueue.Op Int),
        ∃ q, RingQueue.run 1 (RingQueue.new 1) ops = some q ∧ 0 ≤ q.ring_size) :=
  pop_front_empty_noop 1 (by decide) (by decide)

/-- C17 (fails on the code): on `RingQueue<int,3>` after pushes 1, 2, 3, 4 the state is
buffer 4,2,3 with `begin_index = 1`. A dereference at offset 2147483647, which is `≥ 0`,
adds `1 + 2147483647`, which overflows `int`; the index is -2, outside `0 .. N-1`. -/
theorem index_safety_overflow :
    RingQueue.run 3 (RingQueue.new 3) [.push (1 : Int), .push 2, .push 3, .push 4]
        = some ⟨[4, 2, 3], 1, 3⟩ ∧
      (int32 ((1 : Int) + 2147483647)).tmod ((3 : Nat) : Int) = -2 ∧
      RingQueue.iterator.deref 3 (⟨[4, 2, 3], 1, 3⟩ : RingQueue Int) ⟨0, 2147483647⟩ = none := by
  decide

/-- C17 as amended: for a capacity `2 ≤ N ≤ 2^30`, every sequence of `push_back` /
`pop_front` calls on a fresh queue (pops on an empty ring included) runs to a state
that satisfies the invariant, and in that state the index used by `front()`, by
`push_back`, by a dereference at any offset `≥ 0` for which `begin_index + offset` fits
an `int`, and by `back()` when `ring_size > 0`, lies in `0 .. N-1`, so each of these
accesses is inside the array. -/
theorem index_safety [Inhabited ItemType] (N : Nat) (hN : 2 ≤ N) (hcap : N ≤ 1073741824)
    (ops : List (RingQueue.Op ItemType)) :
    ∃ q, RingQueue.run N (RingQueue.new N) ops = some q ∧ ring_invariant N q ∧
      (0 ≤ q.begin_index ∧ q.begin_index < N ∧ (RingQueue.front q).ret.isSome = true) ∧
      (∀ v : ItemType, 0 ≤ (int32 (q.begin_index + q.ring_size)).tmod N ∧
        (int32 (q.begin_index + q.ring_size)).tmod N < N ∧
        (RingQueue.push_back N q v).isSome = true) ∧
      (∀ (self : Nat) (o : Int), 0 ≤ o → q.begin_index + o ≤ 2147483647 →
        0 ≤ (int32 (q.begin_index + o)).tmod N ∧
        (int32 (q.begin_index + o)).tmod N < N ∧
        (RingQueue.iterator.deref N q ⟨self, o⟩).isSome = true) ∧
      (0 < q.ring_size →
        0 ≤ (int32 (int32 (q.begin_index + q.ring_size) - 1)).tmod N ∧
        (int32 (int32 (q.begin_index + q.ring_size) - 1)).tmod N < N ∧
        (RingQueue.back N q).ret.isSome = true) := by
  have hNpos : 0 < N := by omega
  obtain ⟨q, hrun, hinv⟩ :=
    run_invariant N hN hcap ops (RingQueue.new N : RingQueue ItemType) (new_invariant N (by omega))
  obtain ⟨hlen, hb0, hlt, hs0, hsN⟩ := hinv
  refine ⟨q, hrun, ⟨hlen, hb0, hlt, hs0, hsN⟩, ⟨hb0, hlt, ?_⟩, ?_, ?_, ?_⟩
  · exact read_slot_isSome _ _ hb0 (by rw [hlen]; exact hlt)
  · intro v
    have hsum : int32 (q.begin_index + q.ring_size) = q.begin_index + q.ring_size :=
      int32_of_range _ (by omega) (by omega)
    obtain ⟨h0, h1, -⟩ := tmod_range (q.begin_index + q.ring_size) N (by omega) hNpos
    obtain ⟨b2, hpush, -⟩ :=
      push_back_step N q v hNpos (by omega) ⟨hlen, hb0, hs0, hsN⟩ (by omega)
    rw [hsum]
    exact ⟨h0, h1, by rw [hpush]; rfl⟩
  · intro self o ho hfit
    have hsum : int32 (q.begin_index + o) = q.begin_index + o :=
      int32_of_range _ (by omega) (by omega)
    obtain ⟨h0, h1, -⟩ := tmod_range (q.begin_index + o) N (by omega) hNpos
    refine ⟨by rw [hsum]; exact h0, by rw [hsum]; exact h1, ?_⟩
    unfold RingQueue.iterator.deref
    rw [hsum]
    exact read_slot_isSome _ _ h0 (by rw [hlen]; exact h1)
  · intro hpos
    have hsum : int32 (int32 (q.begin_index + q.ring_size) - 1)
        = q.begin_index + q.ring_size - 1 := by
      rw [int32_of_range (q.begin_index + q.ring_size) (by omega) (by omega),
        int32_of_range _ (by omega) (by omega)]
    obtain ⟨h0, h1, -⟩ := tmod_range (q.begin_index + q.ring_size - 1) N (by omega) hNpos
    refine ⟨by rw [hsum]; exact h0, by rw [hsum]; exact h1, ?_⟩
    unfold RingQueue.back
    rw [hsum]
    exact read_slot_isSome _ _ h0 (by rw [hlen]; exact h1)

/-- Witness for C17 as amended: capacity 2, calls push 1, push 2, push 3, pop, pop, pop. -/
theorem index_safety_witness :
    ∃ q, RingQueue.run 2 (RingQueue.new 2)
        [.push (1 : Int), .push 2, .push 3, .pop, .pop, .pop] = some q ∧
      ring_invariant 2 q ∧
      (0 ≤ q.begin_index ∧ q.begin_index < (2 : Nat) ∧ (RingQueue.front q).ret.isSome = true) ∧
      (∀ v : Int, 0 ≤ (int32 (q.begin_index + q.ring_size)).tmod (2 : Nat) ∧
        (int32 (q.begin_index + q.ring_size)).tmod (2 : Nat) < (2 : Nat) ∧
        (RingQueue.push_back 2 q v).isSome = true) ∧
      (∀ (self : Nat) (o : Int), 0 ≤ o → q.begin_index + o ≤ 2147483647 →
        0 ≤ (int32 (q.begin_index + o)).tmod (2 : Nat) ∧
        (int32 (q.begin_index + o)).tmod (2 : Nat) < (2 : Nat) ∧
        (RingQueue.iterator.deref 2 q ⟨self, o⟩).isSome = true) ∧
      (0 < q.ring_size →
        0 ≤ (int32 (int32 (q.begin_index + q.ring_size) - 1)).tmod (2 : Nat) ∧
        (int32 (int32 (q.begin_index + q.ring_size) - 1)).tmod (2 : Nat) < (2 : Nat) ∧
        (RingQueue.back 2 q).ret.isSome = true) :=
  index_safety 2 (by decide) (by decide) [.push (1 : Int), .push 2, .push 3, .pop, .pop, .pop]

/-- C19 (fails on the code above capacity 2^30): capacity 2147483647, a full queue with
`begin_index = 1`, which satisfies the invariant. The sum `begin_index + ring_size`
overflows `int`, the index is -1, and the store of `push_back(9)` falls outside the
array, where the claim has it in slot `(begin_index + ring_size) mod N = 1`. -/
theorem frame_overflow :
    ring_invariant 2147483647
        (⟨List.replicate 2147483647 0, 1, 2147483647⟩ : RingQueue Int) ∧
      (int32 ((1 : Int) + 2147483647)).tmod ((2147483647 : Nat) : Int) = -1 ∧
      ((1 : Int) + 2147483647) % ((2147483647 : Nat) : Int) = 1 ∧
      RingQueue.push_back 2147483647
        (⟨List.replicate 2147483647 0, 1, 2147483647⟩ : RingQueue Int) 9 = none := by
  have hidx : (int32 ((1 : Int) + 2147483647)).tmod ((2147483647 : Nat) : Int) = -1 := by
    decide
  have hpush : ∀ buf : List Int,
      RingQueue.push_back 2147483647 (⟨buf, 1, 2147483647⟩ : RingQueue Int) 9 = none := by
    intro buf
    have hlt : ¬ (2147483647 : Int) < ((2147483647 : Nat) : Int) := by decide
    have hw : write_slot buf (-1) (9 : Int) = none := by
      unfold write_slot
      rw [if_neg (by omega)]
    unfold RingQueue.push_back
    simp only [hlt, if_false, hidx, hw]
  exact ⟨⟨List.length_replicate _ _, by decide, by decide, by decide, by decide⟩,
    hidx, by decide, hpush _⟩

/-- C19 as amended: for a capacity `N ≤ 2^30`, in a state satisfying the invariant,
`push_back(value)` succeeds, keeps the number of slots and changes no slot other than
the one at index `(begin_index + ring_size) mod N`; `pop_front()` leaves the whole
buffer as it was; and `front()`, `back()` and `size()` leave the queue as it was. -/
theorem frame_of_mutators (N : Nat) (q : RingQueue ItemType) (value : ItemType)
    (hcap : N ≤ 1073741824) (hinv : ring_invariant N q) :
    (∃ q1, RingQueue.push_back N q value = some q1 ∧
        q1.buffer.length = q.buffer.length ∧
        ∀ j : Nat, (j : Int) ≠ (q.begin_index + q.ring_size) % (N : Int) →
          q1.buffer[j]? = q.buffer[j]?) ∧
      (RingQueue.pop_front N q).ret.buffer = q.buffer ∧
      RingQueue.after_front q = q ∧
      RingQueue.after_back N q = q ∧
      RingQueue.after_size q = q := by
  obtain ⟨hlen, hb0, hbN, hs0, hsN⟩ := hinv
  have hNpos : 0 < N := by omega
  have hq : ring_bounds N q := ⟨hlen, hb0, hs0, hsN⟩
  obtain ⟨b2, hpush, -⟩ := push_back_step N q value hNpos (by omega) hq (by omega)
  refine ⟨⟨_, hpush, by simp, ?_⟩, (pop_front_size N q hs0 (by omega)).2, rfl, rfl, rfl⟩
  intro j hj
  have hidx : 0 ≤ (q.begin_index + q.ring_size) % (N : Int) :=
    Int.emod_nonneg _ (by omega)
  apply List.getElem?_set_ne
  intro h
  apply hj
  rw [← h, Int.toNat_of_nonneg hidx]

/-- Witness for C19 as amended: capacity 3, a full queue with `begin_index = 1`, push
of 9. -/
theorem frame_of_mutators_witness :
    (∃ q1, RingQueue.push_back 3 (⟨[4, 2, 3], 1, 3⟩ : RingQueue Int) 9 = some q1 ∧
        q1.buffer.length = ([4, 2, 3] : List Int).length ∧
        ∀ j : Nat, (j : Int) ≠ ((1 : Int) + 3) % ((3 : Nat) : Int) →
          q1.buffer[j]? = ([4, 2, 3] : List Int)[j]?) ∧
      (RingQueue.pop_front 3 (⟨[4, 2, 3], 1, 3⟩ : RingQueue Int)).ret.buffer = [4, 2, 3] ∧
      RingQueue.after_front (⟨[4, 2, 3], 1, 3⟩ : RingQueue Int) = ⟨[4, 2, 3], 1, 3⟩ ∧
      RingQueue.after_back 3 (⟨[4, 2, 3], 1, 3⟩ : RingQueue Int) = ⟨[4, 2, 3], 1, 3⟩ ∧
      RingQueue.after_size (⟨[4, 2, 3], 1, 3⟩ : RingQueue Int) = ⟨[4, 2, 3], 1, 3⟩ :=
  frame_of_mutators 3 ⟨[4, 2, 3], 1, 3⟩ 9 (by decide) (by simp [ring_invariant])

end claims
